import Mathlib

/-
Verification of the fuzzy-join engine (distil_primitives_contrib/fuzzy_join.py).

The Python source is shallowly embedded: pandas/numpy values are modelled with
exact rationals (ℚ), nullable cells with Option, dataframe columns with lists,
and raising code with Except / Option results.  Each definition is a direct
transcription of the named Python function; external library calls
(pandas merge/concat semantics, numpy unique/array_split, rapidfuzz
extractOne) are modelled from their documented behaviour where the source
relies on them.
-/

/-- Concatenation of the images of a list under a list-valued function
(the shape `df.apply(...)` + row concatenation used throughout). -/
def listJoinMap {α γ : Type} (f : α → List γ) : List α → List γ
  | [] => []
  | a :: as => f a ++ listJoinMap f as

/-- Helper for `uniqueFirst`: drops the values already seen. -/
def uniqueFirstAux {γ : Type} [DecidableEq γ] (seen : List γ) : List γ → List γ
  | [] => []
  | x :: xs =>
    if x ∈ seen then uniqueFirstAux seen xs
    else x :: uniqueFirstAux (x :: seen) xs

/-- Embeds `pandas.Series.unique`: distinct values in order of first
occurrence. -/
def uniqueFirst {γ : Type} [DecidableEq γ] (l : List γ) : List γ :=
  uniqueFirstAux [] l

/-- Embeds `np.amax` over a nonempty array (numpy raises on an empty array;
the `[]` case below is a dummy value never relied upon). -/
def listMax : List ℚ → ℚ
  | [] => 0
  | x :: xs =>
    match xs with
    | [] => x
    | y :: ys => max x (listMax (y :: ys))

/-- Embeds `np.amin` over a nonempty array. -/
def listMin : List ℚ → ℚ
  | [] => 0
  | x :: xs =>
    match xs with
    | [] => x
    | y :: ys => min x (listMin (y :: ys))

/-- Ordered insertion dropping duplicates, the building block for the
model of `np.unique` (which returns the sorted distinct values). -/
def insertAsc (x : ℚ) : List ℚ → List ℚ
  | [] => [x]
  | y :: ys => if x < y then x :: y :: ys else if x = y then y :: ys else y :: insertAsc x ys

/-- Embeds `np.unique`: the sorted list of distinct values. -/
def uniqueSorted (l : List ℚ) : List ℚ := l.foldr insertAsc []

/-- Tolerance computed inside `FuzzyJoinPrimitive._numeric_fuzzy_match`:
`accuracy` itself when absolute, otherwise `match * (1.0 - accuracy)`. -/
def nfmTolerance (v accuracy : ℚ) (isAbsolute : Bool) : ℚ :=
  if isAbsolute then accuracy else v * (1 - accuracy)

/-- One iteration of the scan in `_numeric_fuzzy_match`: a candidate whose
distance is within tolerance and not larger than the running minimum
(non-strict comparison) overwrites the current best.  The state is `none`
for the initial `min_distance = inf, min_val = nan` pair. -/
def nfmStep (tol v : ℚ) (st : Option (ℚ × ℚ)) (c : ℚ) : Option (ℚ × ℚ) :=
  if decide (|v - c| ≤ tol) && (match st with
      | none => true
      | some p => decide (|v - c| ≤ p.1))
  then some (|v - c|, c) else st

/-- Embeds `FuzzyJoinPrimitive._numeric_fuzzy_match` (the `nan` no-match
result is modelled as `none`). -/
def numeric_fuzzy_match (v : ℚ) (choices : List ℚ) (accuracy : ℚ)
    (isAbsolute : Bool) : Option ℚ :=
  (choices.foldl (nfmStep (nfmTolerance v accuracy isAbsolute) v) none).map Prod.snd

/-- Embeds `FuzzyJoinPrimitive._create_numeric_merge_cols`: the left synthetic
key column, matching each left value against the distinct right-column values
in first-occurrence order (`right_df[right_col].unique()`). -/
def create_numeric_merge_cols (leftVals rightVals : List ℚ) (accuracy : ℚ)
    (isAbsolute : Bool) : List (Option ℚ) :=
  leftVals.map (fun v => numeric_fuzzy_match v (uniqueFirst rightVals) accuracy isAbsolute)

/-- `c` occurs in `choices`, its distance to `v` is within tolerance and
minimal among in-tolerance candidates, and no candidate strictly after `c`
ties it (the later-encountered equally-minimal candidate wins). -/
def IsLastMin (v tol : ℚ) (choices : List ℚ) (c : ℚ) : Prop :=
  ∃ l1 l2, choices = l1 ++ c :: l2 ∧ |v - c| ≤ tol ∧
    (∀ x ∈ choices, |v - x| ≤ tol → |v - c| ≤ |v - x|) ∧
    (∀ x ∈ l2, |v - x| ≤ tol → |v - c| < |v - x|)

/-- One iteration of the scan in `_datetime_fuzzy_match`: unlike the numeric
strategy, the running minimum is only replaced on a strictly smaller
distance (`distance < min_distance`), so the first-encountered minimal
candidate is kept.  `none` models the initial `min_distance = None`. -/
def dtfStep (tol v : ℚ) (st : Option (ℚ × ℚ)) (c : ℚ) : Option (ℚ × ℚ) :=
  if decide (|v - c| ≤ tol) && (match st with
      | none => true
      | some p => decide (|v - c| < p.1))
  then some (|v - c|, c) else st

/-- Embeds `FuzzyJoinPrimitive._datetime_fuzzy_match`, timestamps as
rationals; the `pd.NaT` no-match result is modelled as `none`. -/
def datetime_fuzzy_match (m : ℚ) (choices : List ℚ) (tolerance : ℚ) : Option ℚ :=
  (choices.foldl (dtfStep tolerance m) none).map Prod.snd

/-- `c` occurs in `choices`, its distance to `v` is within tolerance and
minimal among in-tolerance candidates, and every candidate strictly before
`c` is strictly farther (the first-encountered minimal candidate is kept). -/
def IsFirstMin (v tol : ℚ) (choices : List ℚ) (c : ℚ) : Prop :=
  ∃ l1 l2, choices = l1 ++ c :: l2 ∧ |v - c| ≤ tol ∧
    (∀ x ∈ choices, |v - x| ≤ tol → |v - c| ≤ |v - x|) ∧
    (∀ x ∈ l1, |v - x| ≤ tol → |v - c| < |v - x|)

/-- Embeds `FuzzyJoinPrimitive._compute_time_range`: the smaller of the two
observed time ranges `max(timestamps) - min(timestamps)`. -/
def compute_time_range (left right : List ℚ) : ℚ :=
  min (listMax left - listMin left) (listMax right - listMin right)

/-- Embeds `FuzzyJoinPrimitive._compute_datetime_tolerance` (timestamps as
rationals): the right column goes through `np.unique` before the range
computation, and the full unchunked left column (`left_df_full`) is used. -/
def compute_datetime_tolerance (leftVals rightVals : List ℚ) (accuracy : ℚ) : ℚ :=
  (1 - accuracy) * compute_time_range leftVals (uniqueSorted rightVals)

/-- Embeds `FuzzyJoinPrimitive._create_datetime_merge_cols`: the left
synthetic key column (matched timestamps against the sorted distinct right
timestamps) together with the parsed right column. -/
def create_datetime_merge_cols (leftVals rightVals : List ℚ) (tolerance : ℚ) :
    List (Option ℚ) × List ℚ :=
  (leftVals.map (fun m => datetime_fuzzy_match m (uniqueSorted rightVals) tolerance),
   rightVals)

/-- The datetime strategy as invoked from `_produce`: the tolerance is
computed once per column pair, then each left timestamp is matched. -/
def datetime_pipeline (leftVals rightVals : List ℚ) (accuracy : ℚ) : List (Option ℚ) :=
  (create_datetime_merge_cols leftVals rightVals
    (compute_datetime_tolerance leftVals rightVals accuracy)).1

/-- A geographic point (latitude, longitude), as decoded by
`_create_geo_vector_merging_cols`. -/
abbrev GeoPoint := ℚ × ℚ

/-- Errors raised by the join (`d3m.exceptions` and Python built-ins). -/
inductive JoinError
  | invalidArgumentValue (msg : String)
  | invalidArgumentType (msg : String)
  | nameError
  | typeError
  | valueError (msg : String)
  | mergeError (msg : String)
deriving DecidableEq

/-- Embeds `FuzzyJoinPrimitive._geo_fuzzy_match`: keeps the candidate right
rows whose point in column `col` lies strictly within the tolerance of the
left point under the distance function `d` (haversine in the source; the
narrowing logic is independent of the concrete distance).  Raises
`InvalidArgumentTypeError` when the accuracy is not absolute.  A candidate
row is a function from coordinate-position index to its point. -/
def geo_fuzzy_match (d : GeoPoint → GeoPoint → ℚ) (m : GeoPoint)
    (choices : List (Nat → GeoPoint)) (col : Nat) (accuracy : ℚ)
    (isAbsolute : Bool) : Except JoinError (List (Nat → GeoPoint)) :=
  if isAbsolute then
    .ok (choices.filter (fun r => decide (d m (r col) < accuracy)))
  else
    .error (.invalidArgumentType
      "geo fuzzy match requires an absolute accuracy parameter that specifies the tolerance in meters")

/-- The per-left-row narrowing loop of `_create_geo_vector_merging_cols`:
position 0 filters the full right-row set, and each further position filters
the surviving candidates. -/
def geoNarrowSteps (d : GeoPoint → GeoPoint → ℚ) (accuracy : ℚ) (isAbsolute : Bool)
    (leftPts : Nat → GeoPoint) :
    List Nat → List (Nat → GeoPoint) → Except JoinError (List (Nat → GeoPoint))
  | [], cands => .ok cands
  | i :: is, cands =>
    match geo_fuzzy_match d (leftPts i) cands i accuracy isAbsolute with
    | .error e => .error e
    | .ok next => geoNarrowSteps d accuracy isAbsolute leftPts is next

/-- Embeds the per-left-row portion of `_create_geo_vector_merging_cols`:
narrow the candidate set over coordinate positions `0 .. numPos-1`, then
keep the first remaining candidate (`x.head(1)`) or null. -/
def geoMatchRow (d : GeoPoint → GeoPoint → ℚ) (accuracy : ℚ) (isAbsolute : Bool)
    (leftPts : Nat → GeoPoint) (numPos : Nat) (rights : List (Nat → GeoPoint)) :
    Except JoinError (Option (Nat → GeoPoint)) :=
  (geoNarrowSteps d accuracy isAbsolute leftPts (List.range numPos) rights).map List.head?

/-- Embeds `rapidfuzz.process.extractOne`: the best-scoring choice together
with its score, `None` on an empty choice sequence; on ties the
first-encountered maximal choice is kept. -/
def extractOne (score : String → String → ℚ) (m : String) :
    List String → Option (String × ℚ)
  | [] => none
  | c :: cs =>
    match extractOne score m cs with
    | none => some (c, score m c)
    | some (b, s) => if score m c < s then some (b, s) else some (c, score m c)

/-- Embeds `FuzzyJoinPrimitive._string_fuzzy_match`.  When `extractOne`
returns `None` (empty choice set) the tuple unpacking
`choice, score, index = ...` raises a `TypeError`. -/
def string_fuzzy_match (score : String → String → ℚ) (m : String)
    (choices : List String) (minScore : ℚ) : Except JoinError (Option String) :=
  match extractOne score m choices with
  | none => .error .typeError
  | some (choice, s) => .ok (if minScore ≤ s then some choice else none)

/-- The matches-dictionary loop of `_create_string_merge_cols`: one fuzzy
lookup per distinct left value, aborting on the first raised error. -/
def buildMatches (score : String → String → ℚ) (rightKeys : List String)
    (minScore : ℚ) : List String → Except JoinError (List (String × Option String))
  | [] => .ok []
  | k :: ks =>
    match string_fuzzy_match score k rightKeys minScore with
    | .error e => .error e
    | .ok r =>
      match buildMatches score rightKeys minScore ks with
      | .error e => .error e
      | .ok rest => .ok ((k, r) :: rest)

/-- Dictionary lookup `matches[key]` (`none` only for keys that were never
inserted, which cannot happen in `_create_string_merge_cols`). -/
def lookupMatch : List (String × Option String) → String → Option String
  | [], _ => none
  | (k, r) :: rest, v => if v = k then r else lookupMatch rest v

/-- Embeds `FuzzyJoinPrimitive._create_string_merge_cols`: for
`accuracy < 1` each distinct left value is fuzzy-matched once against the
distinct right values with minimum score `accuracy * 100`; for
`accuracy == 1` the raw left values pass through as the synthetic key. -/
def create_string_merge_cols (score : String → String → ℚ)
    (leftVals rightVals : List String) (accuracy : ℚ) :
    Except JoinError (List (Option String)) :=
  if accuracy < 1 then
    match buildMatches score (uniqueFirst rightVals) (accuracy * 100) (uniqueFirst leftVals) with
    | .error e => .error e
    | .ok matchesMap => .ok (leftVals.map (fun v => lookupMatch matchesMap v))
  else
    .ok (leftVals.map some)

/-- A synthetic key tuple: one nullable cell per join column spec. -/
abbrev Key (κ : Type) := List (Option κ)

/-- Key equality as used by `pd.merge`: plain tuple equality.  Pandas
factorizes missing key values into a shared group (`_factorize_keys`
remaps both sides' `-1` NA codes to one group code), so a null key equals
a null key — unlike SQL null semantics. -/
def keysMatch {κ : Type} [DecidableEq κ] (k1 k2 : Key κ) : Bool :=
  decide (k1 = k2)

/-- The `join_type` hyperparameter values. -/
inductive JoinType
  | left
  | right
  | inner
  | outer
  | cross
deriving DecidableEq

/-- Right rows matching a left row's key. -/
def matchesOf {α β κ : Type} [DecidableEq κ] (lk : α → Key κ) (rk : β → Key κ)
    (a : α) (R : List β) : List β :=
  R.filter (fun b => keysMatch (lk a) (rk b))

/-- Left rows matching a right row's key. -/
def leftMatchesOf {α β κ : Type} [DecidableEq κ] (lk : α → Key κ) (rk : β → Key κ)
    (b : β) (L : List α) : List α :=
  L.filter (fun a => keysMatch (lk a) (rk b))

/-- Models `pd.merge(..., how="inner")` with `sort=False`: left rows in
order, each paired with its matching right rows in right order. -/
def innerJoin {α β κ : Type} [DecidableEq κ] (lk : α → Key κ) (rk : β → Key κ)
    (L : List α) (R : List β) : List (Option α × Option β) :=
  listJoinMap (fun a => (matchesOf lk rk a R).map (fun b => (some a, some b))) L

/-- Models `pd.merge(..., how="left")`: every left row appears, matched
rows paired in right order, unmatched rows padded with nulls. -/
def leftJoin {α β κ : Type} [DecidableEq κ] (lk : α → Key κ) (rk : β → Key κ)
    (L : List α) (R : List β) : List (Option α × Option β) :=
  listJoinMap (fun a =>
    match matchesOf lk rk a R with
    | [] => [(some a, none)]
    | ms => ms.map (fun b => (some a, some b))) L

/-- Models `pd.merge(..., how="right")`: every right row appears, matched
left rows paired in left order, unmatched rows padded with nulls. -/
def rightJoin {α β κ : Type} [DecidableEq κ] (lk : α → Key κ) (rk : β → Key κ)
    (L : List α) (R : List β) : List (Option α × Option β) :=
  listJoinMap (fun b =>
    match leftMatchesOf lk rk b L with
    | [] => [(none, some b)]
    | ms => ms.map (fun a => (some a, some b))) R

/-- The null-padded right rows that match no left row (the tail block of a
full outer merge). -/
def rightNullRows {α β κ : Type} [DecidableEq κ] (lk : α → Key κ) (rk : β → Key κ)
    (L : List α) (R : List β) : List (Option α × Option β) :=
  (R.filter (fun b => (leftMatchesOf lk rk b L).isEmpty)).map (fun b => (none, some b))

/-- Models `pd.merge(..., how="outer")` with `sort=False`: the left-join
block followed by the right rows that matched nothing. -/
def outerJoin {α β κ : Type} [DecidableEq κ] (lk : α → Key κ) (rk : β → Key κ)
    (L : List α) (R : List β) : List (Option α × Option β) :=
  leftJoin lk rk L R ++ rightNullRows lk rk L R

/-- The merge performed by `FuzzyJoinPrimitive._produce` (lines 511-518):
`pd.merge` on the synthetic key columns, with `left_on`/`right_on` always
supplied.  Pandas rejects `how="cross"` combined with `left_on`/`right_on`
by raising a `MergeError`, so cross mode never produces rows. -/
def mergeJoin {α β κ : Type} [DecidableEq κ] (mode : JoinType) (lk : α → Key κ)
    (rk : β → Key κ) (L : List α) (R : List β) :
    Except JoinError (List (Option α × Option β)) :=
  match mode with
  | .left => .ok (leftJoin lk rk L R)
  | .right => .ok (rightJoin lk rk L R)
  | .inner => .ok (innerJoin lk rk L R)
  | .outer => .ok (outerJoin lk rk L R)
  | .cross => .error (.mergeError
      "Can not pass on, right_on, left_on or set right_index=True or left_index=True")

/-- The chunk count hard-coded in `FuzzyJoinPrimitive.produce`
(`num_splits = 32`). -/
def numSplits : Nat := 32

/-- Chunk sizes of `np.array_split(df, k)`: the first `n % k` chunks get
`n / k + 1` rows, the rest `n / k` rows. -/
def splitSizes (n k : Nat) : List Nat :=
  List.replicate (n % k) (n / k + 1) ++ List.replicate (k - n % k) (n / k)

/-- Cut a list into contiguous chunks of the given sizes. -/
def takeChunks {α : Type} : List Nat → List α → List (List α)
  | [], _ => []
  | s :: ss, l => l.take s :: takeChunks ss (l.drop s)

/-- Embeds `np.array_split(left_df, num_splits)`: row order is preserved
across the chunk boundaries. -/
def splitDataFrame {α : Type} (l : List α) (k : Nat) : List (List α) :=
  takeChunks (splitSizes l.length k) l

/-- Embeds `FuzzyJoinPrimitive._produce_threaded` for one chunk: an empty
chunk yields `(index, None)` before `_produce` is ever entered; otherwise
the chunk is joined against a private copy of the right table, and an
exception raised inside `_produce` propagates out of the task. -/
def produce_threaded {α β κ : Type} [DecidableEq κ] (mode : JoinType)
    (lk : α → Key κ) (rk : β → Key κ) (chunk : List α) (R : List β) :
    Except JoinError (Option (List (Option α × Option β))) :=
  if chunk.isEmpty then .ok none else (mergeJoin mode lk rk chunk R).map some

/-- Collects the per-chunk task results in chunk-index order; an exception
raised by any task aborts the whole join (joblib re-raises it). -/
def collectParts {γ : Type} :
    List (Except JoinError (Option (List γ))) → Except JoinError (List (Option (List γ)))
  | [] => .ok []
  | .error e :: _ => .error e
  | .ok p :: rest => (collectParts rest).map (fun ps => p :: ps)

/-- Embeds `pd.concat(joined_split, ignore_index=True)`: `None` entries are
dropped silently, but when every entry is `None` pandas raises
`ValueError("All objects passed were None")`. -/
def concatChunks {γ : Type} (parts : List (Option (List γ))) :
    Except JoinError (List γ) :=
  if parts.all (fun p => p.isNone) then
    .error (.valueError "All objects passed were None")
  else .ok (listJoinMap (fun p => p.getD []) parts)

/-- Embeds the chunked-parallel execution of `FuzzyJoinPrimitive.produce`:
partition the left table into 32 ordered chunks, join each independently,
reassemble in chunk-index order.  The worker-pool size (`n_jobs`) only
selects the degree of parallelism and does not appear in the data path. -/
def produceChunked {α β κ : Type} [DecidableEq κ] (mode : JoinType)
    (lk : α → Key κ) (rk : β → Key κ) (L : List α) (R : List β) :
    Except JoinError (List (Option α × Option β)) :=
  match collectParts ((splitDataFrame L numSplits).map
      (fun c => produce_threaded mode lk rk c R)) with
  | .error e => .error e
  | .ok parts => concatChunks parts

/-- Decidable equality for `Except` results, to evaluate closed instances. -/
instance {ε γ : Type} [DecidableEq ε] [DecidableEq γ] :
    DecidableEq (Except ε γ) := fun a b =>
  match a, b with
  | .error e1, .error e2 =>
    if h : e1 = e2 then isTrue (by rw [h])
    else isFalse (fun hc => h (by injection hc))
  | .ok v1, .ok v2 =>
    if h : v1 = v2 then isTrue (by rw [h])
    else isFalse (fun hc => h (by injection hc))
  | .error _, .ok _ => isFalse (fun hc => by injection hc)
  | .ok _, .error _ => isFalse (fun hc => by injection hc)

/-- A hyperparameter supplied either as a scalar or as a parallel sequence
(the two variants of the `Union` hyperparameters of the primitive). -/
inductive HParam (α : Type)
  | scalar (a : α)
  | seq (l : List α)
deriving DecidableEq

/-- One entry of the accuracy-range loop of `produce`:
`(accuracy[i] <= 0.0 or accuracy[i] > 1.0) and not absolute_accuracy[i]`. -/
def badAccuracyEntry (a : ℚ) (b : Bool) : Bool :=
  (decide (a ≤ 0) || decide (1 < a)) && !b

/-- Whether the loop over parallel accuracy/absolute sequences hits an
out-of-range relative accuracy. -/
def anyBadAccuracy : List ℚ → List Bool → Bool
  | a :: as, b :: bs => badAccuracyEntry a b || anyBadAccuracy as bs
  | _, _ => false

/-- The column-name condition of `produce` (lines 288-296).  The Python
`and`-chain short-circuits: with sequence columns of unequal length the
clause `type(accuracy) != list` is False whenever the accuracy is itself a
sequence, making the whole condition False; with a scalar accuracy the next
clause evaluates `len(accuracy)` on a float, which raises `TypeError`. -/
def colCondition (leftCol rightCol : HParam String) (accuracy : HParam ℚ) :
    Except JoinError Bool :=
  match leftCol, rightCol with
  | .scalar _, .scalar _ => .ok false
  | .scalar _, .seq _ => .ok true
  | .seq _, .scalar _ => .ok true
  | .seq l, .seq r =>
    if l.length ≠ r.length then
      match accuracy with
      | .seq _ => .ok false
      | .scalar _ => .error .typeError
    else .ok false

/-- Embeds the hyperparameter-validation prologue of
`FuzzyJoinPrimitive.produce` (lines 249-301), after tuples have been
normalised to lists.  `nameError` models the `NameError` raised on line 282,
whose message interpolates the undefined variable `acc`. -/
def validate_hyperparams (accuracy : HParam ℚ) (absolute : HParam Bool)
    (leftCol rightCol : HParam String) : Except JoinError Unit :=
  match accuracy, absolute with
  | .scalar _, .seq _ =>
    .error (.invalidArgumentValue
      "only 1 value of accuracy provided, but multiple values for absolute accuracy provided")
  | .seq _, .scalar _ =>
    .error (.invalidArgumentValue
      "only 1 for absolute accuracy provided, but multiple values of accuracy provided")
  | .scalar a, .scalar b =>
    if !b && (decide (a ≤ 0) || decide (1 < a)) then
      .error (.invalidArgumentValue "accuracy is out of range")
    else
      match colCondition leftCol rightCol (.scalar a) with
      | .error e => .error e
      | .ok true => .error (.invalidArgumentType
          "both left_col and right_col need to have same data type and if they are lists, the same list lengths")
      | .ok false => .ok ()
  | .seq la, .seq lb =>
    if la.length ≠ lb.length then
      .error (.invalidArgumentValue
        "the count of accuracy hyperparams does not match the count of absolute_accuracy hyperparams")
    else if anyBadAccuracy la lb then
      .error .nameError
    else
      match colCondition leftCol rightCol (.seq la) with
      | .error e => .error e
      | .ok true => .error (.invalidArgumentType
          "both left_col and right_col need to have same data type and if they are lists, the same list lengths")
      | .ok false => .ok ()

/-- Number of left rows receiving a non-null synthetic numeric key. -/
def matchedCount (leftVals rightVals : List ℚ) (accuracy : ℚ)
    (isAbsolute : Bool) : Nat :=
  (create_numeric_merge_cols leftVals rightVals accuracy isAbsolute).countP
    (fun o => o.isSome)

/-- A table joined with itself on one string column with `accuracy = 1.0`
in inner mode: the string strategy produces the synthetic keys, then the
merge engine equi-joins on them. -/
def string_self_inner_join (score : String → String → ℚ) (vals : List String) :
    Except JoinError (List (Option (String × Option String) × Option String)) :=
  match create_string_merge_cols score vals vals 1 with
  | .error e => .error e
  | .ok keys =>
    mergeJoin .inner (fun p : String × Option String => [p.2])
      (fun v : String => [some v]) (vals.zip keys) vals

/-- Left-key function for the closed chunking instances: the key is the
row's own value, always non-null. -/
def exKeyL (a : Nat) : Key Nat := [some a]

/-- Right-key function for the closed chunking instances: shifted so that
no right key ever equals a left key. -/
def exKeyR (b : Nat) : Key Nat := [some (b + 100)]

/-- Left-key function whose synthetic key tuple is null (for closed
instances of the null-semantics theorem). -/
def exKeyNull (a : Nat) : Key Nat := [none]

theorem listJoinMap_append {α γ : Type} (f : α → List γ) (l1 l2 : List α) :
    listJoinMap f (l1 ++ l2) = listJoinMap f l1 ++ listJoinMap f l2 := by
  induction l1 with
  | nil => rfl
  | cons a as ih => simp [listJoinMap, ih]

theorem mem_uniqueFirstAux {γ : Type} [DecidableEq γ] (l : List γ)
    (seen : List γ) (a : γ) :
    a ∈ uniqueFirstAux seen l ↔ a ∈ l ∧ a ∉ seen := by
  induction l generalizing seen with
  | nil => simp [uniqueFirstAux]
  | cons x xs ih =>
    rw [uniqueFirstAux]
    by_cases hx : x ∈ seen
    · rw [if_pos hx, ih]
      simp only [List.mem_cons]
      constructor
      · exact fun h => ⟨Or.inr h.1, h.2⟩
      · rintro ⟨rfl | hm, hns⟩
        · exact absurd hx hns
        · exact ⟨hm, hns⟩
    · rw [if_neg hx]
      simp only [List.mem_cons, ih, List.mem_cons]
      constructor
      · rintro (rfl | ⟨hm, hns⟩)
        · exact ⟨Or.inl rfl, hx⟩
        · exact ⟨Or.inr hm, fun hc => hns (Or.inr hc)⟩
      · rintro ⟨rfl | hm, hns⟩
        · exact Or.inl rfl
        · by_cases hax : a = x
          · exact Or.inl hax
          · exact Or.inr ⟨hm, fun hc => (hc.elim hax hns)⟩

theorem mem_uniqueFirst {γ : Type} [DecidableEq γ] (l : List γ) (a : γ) :
    a ∈ uniqueFirst l ↔ a ∈ l := by
  rw [uniqueFirst, mem_uniqueFirstAux]
  simp

theorem nodup_uniqueFirstAux {γ : Type} [DecidableEq γ] (l : List γ)
    (seen : List γ) : (uniqueFirstAux seen l).Nodup := by
  induction l generalizing seen with
  | nil => simp [uniqueFirstAux]
  | cons x xs ih =>
    rw [uniqueFirstAux]
    by_cases hx : x ∈ seen
    · rw [if_pos hx]; exact ih seen
    · rw [if_neg hx]
      refine List.nodup_cons.mpr ⟨?_, ih (x :: seen)⟩
      intro hmem
      exact ((mem_uniqueFirstAux _ _ _).mp hmem).2 (List.mem_cons_self _ _)

theorem nodup_uniqueFirst {γ : Type} [DecidableEq γ] (l : List γ) :
    (uniqueFirst l).Nodup := nodup_uniqueFirstAux l []

theorem uniqueFirst_ne_nil {γ : Type} [DecidableEq γ] (l : List γ) (h : l ≠ []) :
    uniqueFirst l ≠ [] := by
  cases l with
  | nil => exact absurd rfl h
  | cons x xs =>
    rw [uniqueFirst, uniqueFirstAux]
    simp only [List.not_mem_nil, if_false]
    exact List.cons_ne_nil _ _

theorem listMax_mem (l : List ℚ) (h : l ≠ []) : listMax l ∈ l := by
  induction l with
  | nil => exact absurd rfl h
  | cons x xs ih =>
    cases xs with
    | nil => simp [listMax]
    | cons y ys =>
      rw [listMax]
      rcases max_choice x (listMax (y :: ys)) with hc | hc <;> rw [hc]
      · exact List.mem_cons_self _ _
      · exact List.mem_cons_of_mem _ (ih (by simp))

theorem le_listMax (l : List ℚ) (a : ℚ) (h : a ∈ l) : a ≤ listMax l := by
  induction l with
  | nil => simp at h
  | cons x xs ih =>
    cases xs with
    | nil => simp at h; simp [listMax, h]
    | cons y ys =>
      rw [listMax]
      rcases List.mem_cons.mp h with rfl | hm
      · exact le_max_left _ _
      · exact le_trans (ih hm) (le_max_right _ _)

theorem listMin_mem (l : List ℚ) (h : l ≠ []) : listMin l ∈ l := by
  induction l with
  | nil => exact absurd rfl h
  | cons x xs ih =>
    cases xs with
    | nil => simp [listMin]
    | cons y ys =>
      rw [listMin]
      rcases min_choice x (listMin (y :: ys)) with hc | hc <;> rw [hc]
      · exact List.mem_cons_self _ _
      · exact List.mem_cons_of_mem _ (ih (by simp))

theorem listMin_le (l : List ℚ) (a : ℚ) (h : a ∈ l) : listMin l ≤ a := by
  induction l with
  | nil => simp at h
  | cons x xs ih =>
    cases xs with
    | nil => simp at h; simp [listMin, h]
    | cons y ys =>
      rw [listMin]
      rcases List.mem_cons.mp h with rfl | hm
      · exact min_le_left _ _
      · exact le_trans (min_le_right _ _) (ih hm)

theorem listMax_congr (l1 l2 : List ℚ) (h : ∀ a, a ∈ l1 ↔ a ∈ l2)
    (h1 : l1 ≠ []) (h2 : l2 ≠ []) : listMax l1 = listMax l2 :=
  le_antisymm
    (le_listMax l2 _ ((h _).mp (listMax_mem l1 h1)))
    (le_listMax l1 _ ((h _).mpr (listMax_mem l2 h2)))

theorem listMin_congr (l1 l2 : List ℚ) (h : ∀ a, a ∈ l1 ↔ a ∈ l2)
    (h1 : l1 ≠ []) (h2 : l2 ≠ []) : listMin l1 = listMin l2 :=
  le_antisymm
    (listMin_le l1 _ ((h _).mpr (listMin_mem l2 h2)))
    (listMin_le l2 _ ((h _).mp (listMin_mem l1 h1)))

theorem mem_insertAsc (x a : ℚ) (l : List ℚ) :
    a ∈ insertAsc x l ↔ a = x ∨ a ∈ l := by
  induction l with
  | nil => simp [insertAsc]
  | cons y ys ih =>
    rw [insertAsc]
    by_cases h1 : x < y
    · simp [h1]
    · rw [if_neg h1]
      by_cases h2 : x = y
      · rw [if_pos h2]
        subst h2
        simp only [List.mem_cons]
        tauto
      · rw [if_neg h2]
        simp only [List.mem_cons, ih]
        tauto

theorem mem_uniqueSorted (l : List ℚ) (a : ℚ) :
    a ∈ uniqueSorted l ↔ a ∈ l := by
  induction l with
  | nil => simp [uniqueSorted]
  | cons x xs ih =>
    show a ∈ insertAsc x (uniqueSorted xs) ↔ _
    rw [mem_insertAsc, ih]
    simp

theorem insertAsc_ne_nil (x : ℚ) (l : List ℚ) : insertAsc x l ≠ [] := by
  cases l with
  | nil => simp [insertAsc]
  | cons y ys =>
    rw [insertAsc]
    by_cases h1 : x < y
    · simp [h1]
    · by_cases h2 : x = y <;> simp [h1, h2]

theorem uniqueSorted_ne_nil (l : List ℚ) (h : l ≠ []) : uniqueSorted l ≠ [] := by
  cases l with
  | nil => exact absurd rfl h
  | cons x xs => exact insertAsc_ne_nil _ _

theorem nfmStep_none (tol v c : ℚ) :
    nfmStep tol v none c = if |v - c| ≤ tol then some (|v - c|, c) else none := by
  by_cases h : |v - c| ≤ tol <;> simp [nfmStep, h]

theorem nfmStep_some (tol v c d0 c0 : ℚ) :
    nfmStep tol v (some (d0, c0)) c =
      if |v - c| ≤ tol ∧ |v - c| ≤ d0 then some (|v - c|, c) else some (d0, c0) := by
  by_cases h1 : |v - c| ≤ tol
  · by_cases h2 : |v - c| ≤ d0 <;> simp [nfmStep, h1, h2]
  · simp [nfmStep, h1]

theorem nfmFold_spec (tol v : ℚ) (choices : List ℚ) :
    (choices.foldl (nfmStep tol v) none = none ↔ ∀ x ∈ choices, ¬ |v - x| ≤ tol)
  ∧ ∀ d c, choices.foldl (nfmStep tol v) none = some (d, c) →
      d = |v - c| ∧ IsLastMin v tol choices c := by
  induction choices using List.reverseRecOn with
  | nil =>
    constructor
    · simp
    · intro d c h; simp at h
  | append_singleton l x ih =>
    obtain ⟨ihn, ihs⟩ := ih
    simp only [List.foldl_append, List.foldl_cons, List.foldl_nil]
    cases hst : l.foldl (nfmStep tol v) none with
    | none =>
      have hnone := ihn.mp hst
      rw [nfmStep_none]
      by_cases hx : |v - x| ≤ tol
      · rw [if_pos hx]
        constructor
        · constructor
          · intro h; exact absurd h (by simp)
          · intro hall; exact absurd hx (hall x (by simp))
        · intro d c h
          injection h with h'
          injection h' with h1 h2
          subst h1; subst h2
          refine ⟨rfl, l, [], rfl, hx, ?_, by simp⟩
          intro y hy hyt
          rcases List.mem_append.mp hy with hyl | hyx
          · exact absurd hyt (hnone y hyl)
          · simp at hyx; subst hyx; exact le_refl _
      · rw [if_neg hx]
        constructor
        · refine iff_of_true rfl ?_
          intro y hy
          rcases List.mem_append.mp hy with hyl | hyx
          · exact hnone y hyl
          · simp at hyx; subst hyx; exact hx
        · intro d c h; simp at h
    | some p =>
      obtain ⟨d0, c0⟩ := p
      obtain ⟨hd0, l1, l2, hdec, htol0, hmin0, hlast0⟩ := ihs d0 c0 hst
      have hc0mem : c0 ∈ l := by rw [hdec]; simp
      rw [nfmStep_some]
      by_cases hcond : |v - x| ≤ tol ∧ |v - x| ≤ d0
      · rw [if_pos hcond]
        constructor
        · constructor
          · intro h; exact absurd h (by simp)
          · intro hall; exact absurd hcond.1 (hall x (by simp))
        · intro d c h
          injection h with h'
          injection h' with h1 h2
          subst h1; subst h2
          refine ⟨rfl, l, [], rfl, hcond.1, ?_, by simp⟩
          intro y hy hyt
          rcases List.mem_append.mp hy with hyl | hyx
          · exact le_trans (le_trans hcond.2 (le_of_eq hd0)) (hmin0 y hyl hyt)
          · simp at hyx; subst hyx; exact le_refl _
      · rw [if_neg hcond]
        constructor
        · constructor
          · intro h; exact absurd h (by simp)
          · intro hall; exact absurd htol0 (hall c0 (List.mem_append_left _ hc0mem))
        · intro d c h
          injection h with h'
          injection h' with h1 h2
          subst h1; subst h2
          have hxside : |v - x| ≤ tol → |v - c0| < |v - x| := by
            intro hxt
            have hb : ¬ |v - x| ≤ d0 := fun hb => hcond ⟨hxt, hb⟩
            rw [hd0] at hb
            exact lt_of_not_le hb
          refine ⟨hd0, l1, l2 ++ [x], by rw [hdec]; simp, htol0, ?_, ?_⟩
          · intro y hy hyt
            rcases List.mem_append.mp hy with hyl | hyx
            · exact hmin0 y hyl hyt
            · simp at hyx; subst hyx; exact le_of_lt (hxside hyt)
          · intro y hy hyt
            rcases List.mem_append.mp hy with hyl | hyx
            · exact hlast0 y hyl hyt
            · simp at hyx; subst hyx; exact hxside hyt

theorem dtfStep_none (tol v c : ℚ) :
    dtfStep tol v none c = if |v - c| ≤ tol then some (|v - c|, c) else none := by
  by_cases h : |v - c| ≤ tol <;> simp [dtfStep, h]

theorem dtfStep_some (tol v c d0 c0 : ℚ) :
    dtfStep tol v (some (d0, c0)) c =
      if |v - c| ≤ tol ∧ |v - c| < d0 then some (|v - c|, c) else some (d0, c0) := by
  by_cases h1 : |v - c| ≤ tol
  · by_cases h2 : |v - c| < d0 <;> simp [dtfStep, h1, h2]
  · simp [dtfStep, h1]

theorem dtfFold_spec (tol v : ℚ) (choices : List ℚ) :
    (choices.foldl (dtfStep tol v) none = none ↔ ∀ x ∈ choices, ¬ |v - x| ≤ tol)
  ∧ ∀ d c, choices.foldl (dtfStep tol v) none = some (d, c) →
      d = |v - c| ∧ IsFirstMin v tol choices c := by
  induction choices using List.reverseRecOn with
  | nil =>
    constructor
    · simp
    · intro d c h; simp at h
  | append_singleton l x ih =>
    obtain ⟨ihn, ihs⟩ := ih
    simp only [List.foldl_append, List.foldl_cons, List.foldl_nil]
    cases hst : l.foldl (dtfStep tol v) none with
    | none =>
      have hnone := ihn.mp hst
      rw [dtfStep_none]
      by_cases hx : |v - x| ≤ tol
      · rw [if_pos hx]
        constructor
        · constructor
          · intro h; exact absurd h (by simp)
          · intro hall; exact absurd hx (hall x (by simp))
        · intro d c h
          injection h with h'
          injection h' with h1 h2
          subst h1; subst h2
          refine ⟨rfl, l, [], rfl, hx, ?_, ?_⟩
          · intro y hy hyt
            rcases List.mem_append.mp hy with hyl | hyx
            · exact absurd hyt (hnone y hyl)
            · simp at hyx; subst hyx; exact le_refl _
          · intro y hy hyt
            exact absurd hyt (hnone y hy)
      · rw [if_neg hx]
        constructor
        · refine iff_of_true rfl ?_
          intro y hy
          rcases List.mem_append.mp hy with hyl | hyx
          · exact hnone y hyl
          · simp at hyx; subst hyx; exact hx
        · intro d c h; simp at h
    | some p =>
      obtain ⟨d0, c0⟩ := p
      obtain ⟨hd0, l1, l2, hdec, htol0, hmin0, hfirst0⟩ := ihs d0 c0 hst
      have hc0mem : c0 ∈ l := by rw [hdec]; simp
      rw [dtfStep_some]
      by_cases hcond : |v - x| ≤ tol ∧ |v - x| < d0
      · rw [if_pos hcond]
        constructor
        · constructor
          · intro h; exact absurd h (by simp)
          · intro hall; exact absurd hcond.1 (hall x (by simp))
        · intro d c h
          injection h with h'
          injection h' with h1 h2
          subst h1; subst h2
          have hltc0 : |v - x| < |v - c0| := by rw [← hd0]; exact hcond.2
          refine ⟨rfl, l, [], rfl, hcond.1, ?_, ?_⟩
          · intro y hy hyt
            rcases List.mem_append.mp hy with hyl | hyx
            · exact le_trans (le_of_lt hltc0) (hmin0 y hyl hyt)
            · simp at hyx; subst hyx; exact le_refl _
          · intro y hy hyt
            exact lt_of_lt_of_le hltc0 (hmin0 y hy hyt)
      · rw [if_neg hcond]
        constructor
        · constructor
          · intro h; exact absurd h (by simp)
          · intro hall; exact absurd htol0 (hall c0 (List.mem_append_left _ hc0mem))
        · intro d c h
          injection h with h'
          injection h' with h1 h2
          subst h1; subst h2
          have hxside : |v - x| ≤ tol → |v - c0| ≤ |v - x| := by
            intro hxt
            have hb : ¬ |v - x| < d0 := fun hb => hcond ⟨hxt, hb⟩
            rw [hd0] at hb
            exact le_of_not_lt hb
          refine ⟨hd0, l1, l2 ++ [x], by rw [hdec]; simp, htol0, ?_, hfirst0⟩
          intro y hy hyt
          rcases List.mem_append.mp hy with hyl | hyx
          · exact hmin0 y hyl hyt
          · simp at hyx; subst hyx; exact hxside hyt

theorem listJoinMap_map {α β γ : Type} (g : β → List γ) (f : α → β) (l : List α) :
    listJoinMap g (l.map f) = listJoinMap (fun a => g (f a)) l := by
  induction l with
  | nil => rfl
  | cons a as ih => simp [listJoinMap, ih]

theorem listJoinMap_congr {α γ : Type} (f g : α → List γ) (l : List α)
    (h : ∀ a ∈ l, f a = g a) : listJoinMap f l = listJoinMap g l := by
  induction l with
  | nil => rfl
  | cons a as ih =>
    simp only [listJoinMap]
    rw [h a (List.mem_cons_self _ _), ih (fun x hx => h x (List.mem_cons_of_mem _ hx))]

theorem listJoinMap_eq_nil {α γ : Type} (f : α → List γ) (l : List α)
    (h : ∀ a ∈ l, f a = []) : listJoinMap f l = [] := by
  induction l with
  | nil => rfl
  | cons a as ih =>
    simp only [listJoinMap]
    rw [h a (List.mem_cons_self _ _), ih (fun x hx => h x (List.mem_cons_of_mem _ hx))]
    rfl

theorem splitSizes_sum (n k : Nat) (hk : 0 < k) : (splitSizes n k).sum = n := by
  have hmod : n % k < k := Nat.mod_lt _ hk
  have hdm : k * (n / k) + n % k = n := Nat.div_add_mod n k
  have h2 : n % k * (n / k) ≤ k * (n / k) :=
    Nat.mul_le_mul_right _ (le_of_lt hmod)
  rw [splitSizes, List.sum_append, List.sum_replicate, List.sum_replicate,
    smul_eq_mul, smul_eq_mul, Nat.mul_succ, Nat.sub_mul]
  rw [Nat.add_comm (n % k * (n / k)) (n % k), Nat.add_assoc,
    Nat.add_sub_cancel' h2, Nat.add_comm]
  exact hdm

theorem takeChunks_join {α : Type} (ss : List Nat) (l : List α) :
    listJoinMap id (takeChunks ss l) = l.take ss.sum := by
  induction ss generalizing l with
  | nil => simp [takeChunks, listJoinMap]
  | cons s ss ih =>
    simp only [takeChunks, listJoinMap, id, List.sum_cons, ih]
    rw [List.take_add]

theorem splitDataFrame_join {α : Type} (l : List α) (k : Nat) (hk : 0 < k) :
    listJoinMap id (splitDataFrame l k) = l := by
  rw [splitDataFrame, takeChunks_join, splitSizes_sum _ _ hk, List.take_length]

theorem listJoinMap_listJoinMap {α γ : Type} (f : α → List γ) (cs : List (List α)) :
    listJoinMap (fun c => listJoinMap f c) cs = listJoinMap f (listJoinMap id cs) := by
  induction cs with
  | nil => rfl
  | cons c cs ih => simp only [listJoinMap, id, listJoinMap_append, ih]

theorem collectParts_map_ok {σ γ : Type} (g : σ → Option (List γ)) (cs : List σ) :
    collectParts (cs.map (fun c => Except.ok (g c))) = .ok (cs.map g) := by
  induction cs with
  | nil => rfl
  | cons c cs ih =>
    rw [List.map_cons]
    show (collectParts (cs.map (fun c => Except.ok (g c)))).map
      (fun ps => g c :: ps) = _
    rw [ih, List.map_cons]
    rfl

theorem collectParts_replicate_ok {γ : Type} (n : Nat) (p : Option (List γ)) :
    collectParts (List.replicate n (Except.ok p)) = .ok (List.replicate n p) := by
  induction n with
  | zero => rfl
  | succ n ih =>
    rw [List.replicate_succ, List.replicate_succ]
    show (collectParts (List.replicate n (Except.ok p))).map (fun ps => p :: ps) = _
    rw [ih]
    rfl

theorem list_isEmpty_eq_nil {α : Type} (l : List α) (h : l.isEmpty = true) :
    l = [] := by
  cases l with
  | nil => rfl
  | cons a as => simp at h

theorem collectParts_if_error {σ γ : Type} (e : JoinError) (p : σ → Bool) :
    ∀ cs : List σ, (∃ c ∈ cs, p c = false) →
      collectParts (cs.map (fun c =>
        if p c then Except.ok (none : Option (List γ)) else Except.error e))
        = .error e := by
  intro cs
  induction cs with
  | nil => rintro ⟨c, hc, _⟩; simp at hc
  | cons c cs ih =>
    rintro ⟨c0, hc0, hc0p⟩
    rw [List.map_cons]
    by_cases hc : p c
    · rw [if_pos hc]
      have hex : ∃ c' ∈ cs, p c' = false := by
        rcases List.mem_cons.mp hc0 with rfl | hm
        · rw [hc0p] at hc; exact absurd hc (by simp)
        · exact ⟨c0, hm, hc0p⟩
      show (collectParts (cs.map (fun c =>
        if p c then Except.ok (none : Option (List γ)) else Except.error e))).map
          (fun ps => none :: ps) = _
      rw [ih hex]
      rfl
    · rw [if_neg hc]
      rfl

theorem splitDataFrame_exists_nonempty {α : Type} (L : List α) (hL : L ≠ []) :
    ∃ c ∈ splitDataFrame L numSplits, c.isEmpty = false := by
  by_contra hno
  push_neg at hno
  apply hL
  rw [← splitDataFrame_join L numSplits (by norm_num [numSplits])]
  apply listJoinMap_eq_nil
  intro c hc
  have hne := hno c hc
  have hce : c.isEmpty = true := by
    revert hne
    cases c.isEmpty <;> simp
  exact list_isEmpty_eq_nil c hce

theorem produceChunked_ok {α β κ : Type} [DecidableEq κ] (mode : JoinType)
    (lk : α → Key κ) (rk : β → Key κ) (R : List β)
    (f : α → List (Option α × Option β))
    (hf : ∀ L : List α, mergeJoin mode lk rk L R = .ok (listJoinMap f L))
    (L : List α) (hL : L ≠ []) :
    produceChunked mode lk rk L R = .ok (listJoinMap f L) := by
  have hk : 0 < numSplits := by norm_num [numSplits]
  have hflat : listJoinMap id (splitDataFrame L numSplits) = L :=
    splitDataFrame_join L numSplits hk
  have hpt : (fun c => produce_threaded mode lk rk c R)
      = (fun c : List α =>
          Except.ok (if c.isEmpty then none else some (listJoinMap f c))) := by
    funext c
    rw [produce_threaded]
    by_cases hc : c.isEmpty
    · rw [if_pos hc, if_pos hc]
    · rw [if_neg hc, if_neg hc, hf c]
      rfl
  rw [produceChunked, hpt,
    collectParts_map_ok (fun c : List α => if c.isEmpty then none else some (listJoinMap f c))]
  show concatChunks _ = _
  rw [concatChunks]
  have hnotall :
      ¬ (((splitDataFrame L numSplits).map
          (fun c => if c.isEmpty then none else some (listJoinMap f c))).all
            (fun p => p.isNone) = true) := by
    intro hall
    rw [List.all_eq_true] at hall
    apply hL
    rw [← hflat]
    apply listJoinMap_eq_nil
    intro c hc
    have hp := hall _ (List.mem_map_of_mem _ hc)
    by_cases hce : c.isEmpty
    · exact list_isEmpty_eq_nil c hce
    · rw [if_neg hce] at hp
      simp at hp
  rw [if_neg hnotall]
  congr 1
  rw [listJoinMap_map]
  have hcong : ∀ c ∈ splitDataFrame L numSplits,
      (if c.isEmpty then none else some (listJoinMap f c)).getD []
        = listJoinMap f c := by
    intro c hc
    by_cases hce : c.isEmpty
    · rw [if_pos hce, list_isEmpty_eq_nil c hce]
      rfl
    · rw [if_neg hce]
      rfl
  rw [listJoinMap_congr _ _ _ hcong, listJoinMap_listJoinMap, hflat]

theorem produceChunked_cross_error {α β κ : Type} [DecidableEq κ]
    (lk : α → Key κ) (rk : β → Key κ) (L : List α) (R : List β) (hL : L ≠ []) :
    produceChunked .cross lk rk L R = .error (.mergeError
      "Can not pass on, right_on, left_on or set right_index=True or left_index=True") := by
  have hpt : (fun c => produce_threaded .cross lk rk c R)
      = (fun c : List α =>
          if c.isEmpty then Except.ok (none : Option (List (Option α × Option β)))
          else Except.error (.mergeError
            "Can not pass on, right_on, left_on or set right_index=True or left_index=True")) := by
    funext c
    rw [produce_threaded]
    by_cases hc : c.isEmpty
    · rw [if_pos hc, if_pos hc]
    · rw [if_neg hc, if_neg hc]
      rfl
  rw [produceChunked, hpt,
    collectParts_if_error _ _ _ (splitDataFrame_exists_nonempty L hL)]

/-- C1 (amended): for the `left` and `inner` join modes and a nonempty left
table, the chunked execution — left table partitioned into 32 ordered
chunks, each joined independently against a private copy of the right
table, results concatenated in chunk-index order — behaves exactly like one
join over the unpartitioned left table, row for row in values and order;
the worker-pool size never enters the data path.  For `cross` mode both the
chunked and the unpartitioned execution raise pandas `MergeError`, because
`_produce` always passes `left_on`/`right_on`, which `how="cross"` rejects,
so no cross output ever exists.  For the `right` and `outer` modes the
claim fails: each nonempty chunk re-emits the right rows it does not match
(see the counterexample). -/
theorem chunked_join_partition_invariant {α β κ : Type} [DecidableEq κ]
    (mode : JoinType) (hm : mode = .left ∨ mode = .inner)
    (lk : α → Key κ) (rk : β → Key κ) (L : List α) (R : List β) (hL : L ≠ []) :
    produceChunked mode lk rk L R = mergeJoin mode lk rk L R
  ∧ produceChunked .cross lk rk L R = .error (.mergeError
      "Can not pass on, right_on, left_on or set right_index=True or left_index=True")
  ∧ mergeJoin .cross lk rk L R = .error (.mergeError
      "Can not pass on, right_on, left_on or set right_index=True or left_index=True") := by
  refine ⟨?_, produceChunked_cross_error lk rk L R hL, rfl⟩
  rcases hm with rfl | rfl
  · rw [produceChunked_ok .left lk rk R
      (fun a =>
        match matchesOf lk rk a R with
        | [] => [(some a, none)]
        | ms => ms.map (fun b => (some a, some b)))
      (fun L => rfl) L hL]
    rfl
  · rw [produceChunked_ok .inner lk rk R
      (fun a => (matchesOf lk rk a R).map (fun b => (some a, some b)))
      (fun L => rfl) L hL]
    rfl

/-- Witness for C1: the inner-mode partition invariance evaluated on a
concrete one-row join. -/
theorem chunked_join_partition_invariant_witness :
    produceChunked .inner exKeyL exKeyR [1] [7] =
      mergeJoin .inner exKeyL exKeyR [1] [7] :=
  (chunked_join_partition_invariant .inner (Or.inr rfl) exKeyL exKeyR
    [1] [7] (by simp)).1

/-- Counterexample to C1 as stated: in `right` join mode with a two-row
left table (two nonempty chunks) and an unmatched single-row right table,
the chunked execution outputs the right row twice, while the unpartitioned
join outputs it once. -/
theorem chunked_right_join_counterexample :
    produceChunked .right exKeyL exKeyR [1, 2] [7] ≠
      mergeJoin .right exKeyL exKeyR [1, 2] [7] := by decide

theorem splitSizes_zero (k : Nat) : splitSizes 0 k = List.replicate k 0 := by
  simp [splitSizes]

theorem takeChunks_zeroes {α : Type} (k : Nat) :
    takeChunks (List.replicate k 0) ([] : List α) = List.replicate k [] := by
  induction k with
  | zero => rfl
  | succ k ih => simp [takeChunks, List.replicate_succ, ih]

/-- C7: a left table with zero rows makes all 32 chunks empty, so
`_produce_threaded` returns `None` for every chunk index and
`pd.concat` — receiving only `None` objects — raises
`ValueError("All objects passed were None")`, for every join mode and join
spec; the claim instead requires an empty, error-free result. -/
theorem empty_left_chunked_raises {α β κ : Type} [DecidableEq κ] (mode : JoinType)
    (lk : α → Key κ) (rk : β → Key κ) (R : List β) :
    produceChunked mode lk rk ([] : List α) R
      = .error (.valueError "All objects passed were None") := by
  have hall : (List.replicate numSplits
      (none : Option (List (Option α × Option β)))).all (fun p => p.isNone) = true := by
    rw [List.all_eq_true]
    intro p hp
    rw [List.mem_replicate] at hp
    rw [hp.2]
    rfl
  rw [produceChunked, splitDataFrame, List.length_nil, splitSizes_zero,
    takeChunks_zeroes, List.map_replicate,
    show produce_threaded mode lk rk ([] : List α) R
      = Except.ok (none : Option (List (Option α × Option β))) from rfl,
    collectParts_replicate_ok]
  show concatChunks _ = _
  rw [concatChunks, if_pos hall]

theorem numeric_fuzzy_match_isSome_iff (v : ℚ) (choices : List ℚ)
    (accuracy : ℚ) (isAbsolute : Bool) :
    (numeric_fuzzy_match v choices accuracy isAbsolute).isSome = true ↔
      ∃ x ∈ choices, |v - x| ≤ nfmTolerance v accuracy isAbsolute := by
  rw [numeric_fuzzy_match, Option.isSome_iff_ne_none, ne_eq, Option.map_eq_none']
  constructor
  · intro h
    by_contra hno
    push_neg at hno
    exact h ((nfmFold_spec _ _ _).1.mpr (fun x hx => not_le.mpr (hno x hx)))
  · rintro ⟨x, hx, hxt⟩ h
    exact absurd hxt (((nfmFold_spec _ _ _).1.mp h) x hx)

/-- C2: in the numeric strategy the tolerance equals `accuracy` when
`isAbsolute` and `v * (1 - accuracy)` otherwise; each left value is matched
against the distinct right-column values, whose enumeration order is the
first-occurrence order of the right column; the result is the in-tolerance
candidate of minimal distance, with equal-distance ties won by the
later-encountered candidate (non-strict comparison against the running
minimum); with no candidate within tolerance the result is null. -/
theorem numeric_match_strategy_correct (leftVals rightVals : List ℚ)
    (accuracy : ℚ) (isAbsolute : Bool) :
    create_numeric_merge_cols leftVals rightVals accuracy isAbsolute
      = leftVals.map (fun v =>
          numeric_fuzzy_match v (uniqueFirst rightVals) accuracy isAbsolute)
  ∧ (∀ x, x ∈ uniqueFirst rightVals ↔ x ∈ rightVals)
  ∧ (uniqueFirst rightVals).Nodup
  ∧ ∀ v,
      nfmTolerance v accuracy isAbsolute
        = (if isAbsolute then accuracy else v * (1 - accuracy))
      ∧ (∀ c, numeric_fuzzy_match v (uniqueFirst rightVals) accuracy isAbsolute = some c →
          IsLastMin v (nfmTolerance v accuracy isAbsolute) (uniqueFirst rightVals) c)
      ∧ (numeric_fuzzy_match v (uniqueFirst rightVals) accuracy isAbsolute = none ↔
          ∀ x ∈ rightVals, ¬ |v - x| ≤ nfmTolerance v accuracy isAbsolute) := by
  refine ⟨rfl, fun x => mem_uniqueFirst _ _, nodup_uniqueFirst _, fun v => ⟨rfl, ?_, ?_⟩⟩
  · intro c hc
    rw [numeric_fuzzy_match, Option.map_eq_some'] at hc
    obtain ⟨⟨d, c'⟩, hf, hc'⟩ := hc
    cases hc'
    exact ((nfmFold_spec _ _ _).2 d c' hf).2
  · rw [numeric_fuzzy_match, Option.map_eq_none', (nfmFold_spec _ _ _).1]
    constructor
    · intro h x hx
      exact h x ((mem_uniqueFirst _ _).mpr hx)
    · intro h x hx
      exact h x ((mem_uniqueFirst _ _).mp hx)

/-- Witness for C2: matching 10 against right column [8, 12] at relative
accuracy 4/5 gives tolerance 2; both candidates are at distance 2 and the
later-encountered candidate 12 wins the tie. -/
theorem numeric_match_strategy_correct_witness :
    IsLastMin 10 (nfmTolerance 10 (4/5) false) (uniqueFirst [8, 12]) 12 :=
  ((numeric_match_strategy_correct [10] [8, 12] (4/5) false).2.2.2 10).2.1 12 (by
    have hu : uniqueFirst [(8:ℚ), 12] = [8, 12] := by
      norm_num [uniqueFirst, uniqueFirstAux]
    have ht : nfmTolerance 10 (4/5) false = 2 := by norm_num [nfmTolerance]
    have h8 : |(10:ℚ) - 8| = 2 := by
      rw [show (10:ℚ) - 8 = 2 by norm_num]
      exact abs_of_nonneg (by norm_num)
    have h12 : |(10:ℚ) - 12| = 2 := by
      rw [show (10:ℚ) - 12 = -2 by norm_num, abs_neg]
      exact abs_of_nonneg (by norm_num)
    unfold numeric_fuzzy_match
    rw [hu, ht]
    simp only [List.foldl_cons, List.foldl_nil]
    rw [nfmStep_none, if_pos (le_of_eq h8)]
    rw [nfmStep_some, if_pos ⟨le_of_eq h12, le_of_eq (h12.trans h8.symm)⟩]
    rfl)

/-- C8 (amended): for relative accuracy and a left column of nonnegative
values, the matched-row count is antitone in accuracy on (0, 1].  (For a
negative left value the relative tolerance `v * (1 - accuracy)` is negative
below accuracy 1 and reaches 0 at accuracy 1, so the count can grow with
accuracy — see the counterexample.) -/
theorem matched_count_antitone (leftVals rightVals : List ℚ) (a1 a2 : ℚ)
    (hpos : 0 < a1) (h12 : a1 ≤ a2) (hle : a2 ≤ 1)
    (hnn : ∀ v ∈ leftVals, 0 ≤ v) :
    matchedCount leftVals rightVals a2 false ≤ matchedCount leftVals rightVals a1 false := by
  unfold matchedCount create_numeric_merge_cols
  rw [List.countP_map, List.countP_map]
  apply List.countP_mono_left
  intro v hv hsome
  simp only [Function.comp] at hsome ⊢
  rw [numeric_fuzzy_match_isSome_iff] at hsome ⊢
  obtain ⟨x, hx, hxt⟩ := hsome
  refine ⟨x, hx, le_trans hxt ?_⟩
  show nfmTolerance v a2 false ≤ nfmTolerance v a1 false
  unfold nfmTolerance
  simp only [Bool.false_eq_true, if_false]
  exact mul_le_mul_of_nonneg_left (sub_le_sub_left h12 1) (hnn v hv)

/-- Witness for C8: the spec's own numeric example — left value 100, right
value 108 — matched at relative accuracies 9/10 and 19/20. -/
theorem matched_count_antitone_witness :
    matchedCount [100] [108] (19/20) false ≤ matchedCount [100] [108] (9/10) false :=
  matched_count_antitone [100] [108] (9/10) (19/20) (by norm_num) (by norm_num)
    (by norm_num) (by decide)

/-- Counterexample to C8 as stated: for the negative left value -5 the
relative tolerance `-5 * (1 - accuracy)` is negative at accuracy 1/2 (no
match) yet zero at accuracy 1 (exact match), so raising the accuracy from
1/2 to 1 raises the matched-row count from 0 to 1. -/
theorem matched_count_counterexample :
    matchedCount [-5] [-5] (1/2) false = 0 ∧ matchedCount [-5] [-5] 1 false = 1
      ∧ (0 : ℚ) < 1/2 ∧ (1/2 : ℚ) ≤ 1 := by
  have hu : uniqueFirst [(-5:ℚ)] = [-5] := by
    norm_num [uniqueFirst, uniqueFirstAux]
  have habs : |(-5:ℚ) - (-5)| = 0 := by simp
  have ht1 : nfmTolerance (-5) (1/2) false = -5/2 := by norm_num [nfmTolerance]
  have ht2 : nfmTolerance (-5) 1 false = 0 := by norm_num [nfmTolerance]
  have h1 : numeric_fuzzy_match (-5) [(-5:ℚ)] (1/2) false = none := by
    unfold numeric_fuzzy_match
    rw [ht1]
    simp only [List.foldl_cons, List.foldl_nil]
    rw [nfmStep_none, if_neg (by rw [habs]; norm_num)]
    rfl
  have h2 : numeric_fuzzy_match (-5) [(-5:ℚ)] 1 false = some (-5) := by
    unfold numeric_fuzzy_match
    rw [ht2]
    simp only [List.foldl_cons, List.foldl_nil]
    rw [nfmStep_none, if_pos (le_of_eq habs)]
    rfl
  refine ⟨?_, ?_, by norm_num, by norm_num⟩
  · rw [matchedCount, create_numeric_merge_cols, hu]
    rw [List.map_cons, List.map_nil, h1]
    rfl
  · rw [matchedCount, create_numeric_merge_cols, hu]
    rw [List.map_cons, List.map_nil, h2]
    rfl

theorem keysMatch_iff_eq {κ : Type} [DecidableEq κ] (k1 k2 : Key κ) :
    keysMatch k1 k2 = true ↔ k1 = k2 := by
  simp [keysMatch]

theorem keysMatch_eq_false_of_ne {κ : Type} [DecidableEq κ] (k1 k2 : Key κ)
    (h : k2 ≠ k1) : keysMatch k1 k2 = false := by
  simp [keysMatch]
  exact fun hc => h hc.symm

theorem matchesOf_eq_nil_of_ne {α β κ : Type} [DecidableEq κ]
    (lk : α → Key κ) (rk : β → Key κ) (a : α) (R : List β)
    (h : ∀ b ∈ R, rk b ≠ lk a) : matchesOf lk rk a R = [] := by
  rw [matchesOf]
  induction R with
  | nil => rfl
  | cons b bs ih =>
    rw [List.filter_cons,
      keysMatch_eq_false_of_ne _ _ (h b (List.mem_cons_self _ _))]
    simp only [Bool.false_eq_true, if_false]
    exact ih (fun x hx => h x (List.mem_cons_of_mem _ hx))

theorem leftMatchesOf_erase_middle {α β κ : Type} [DecidableEq κ]
    (lk : α → Key κ) (rk : β → Key κ) (a : α) (l1 l2 : List α) (b : β)
    (hb : rk b ≠ lk a) :
    leftMatchesOf lk rk b (l1 ++ a :: l2) = leftMatchesOf lk rk b (l1 ++ l2) := by
  rw [leftMatchesOf, leftMatchesOf, List.filter_append, List.filter_append,
    List.filter_cons, keysMatch_eq_false_of_ne _ _ hb]
  simp

/-- C3 (amended): `pd.merge` factorizes missing key values into a shared
group, so key matching is plain tuple equality and a null synthetic key
DOES equal another null key (see the counterexample).  A left row whose key
tuple contains a null therefore matches exactly the right rows whose key
tuple is identical; when no right row's key tuple equals it — in particular
when no right key is null — the row matches no right row, contributes no
row to an inner join, and appears once padded with nulls in a left or full
outer join, whose unmatched-right block it leaves unchanged. -/
theorem merge_null_key_semantics {α β κ : Type} [DecidableEq κ]
    (lk : α → Key κ) (rk : β → Key κ) (a : α) (hnull : none ∈ lk a)
    (l1 l2 : List α) (R : List β) (hne : ∀ b ∈ R, rk b ≠ lk a) :
    (∀ b, keysMatch (lk a) (rk b) = true ↔ rk b = lk a)
  ∧ (∀ b ∈ R, keysMatch (lk a) (rk b) = false)
  ∧ innerJoin lk rk (l1 ++ a :: l2) R = innerJoin lk rk l1 R ++ innerJoin lk rk l2 R
  ∧ leftJoin lk rk (l1 ++ a :: l2) R
      = leftJoin lk rk l1 R ++ (some a, none) :: leftJoin lk rk l2 R
  ∧ outerJoin lk rk (l1 ++ a :: l2) R
      = (leftJoin lk rk l1 R ++ (some a, none) :: leftJoin lk rk l2 R)
          ++ rightNullRows lk rk (l1 ++ l2) R := by
  have hm : matchesOf lk rk a R = [] := matchesOf_eq_nil_of_ne lk rk a R hne
  have hinner : innerJoin lk rk (l1 ++ a :: l2) R
      = innerJoin lk rk l1 R ++ innerJoin lk rk l2 R := by
    unfold innerJoin
    rw [listJoinMap_append]
    congr 1
    simp only [listJoinMap]
    rw [hm]
    simp
  have hleft : leftJoin lk rk (l1 ++ a :: l2) R
      = leftJoin lk rk l1 R ++ (some a, none) :: leftJoin lk rk l2 R := by
    unfold leftJoin
    rw [listJoinMap_append]
    congr 1
    simp only [listJoinMap]
    rw [hm]
    simp
  have hrnr : rightNullRows lk rk (l1 ++ a :: l2) R
      = rightNullRows lk rk (l1 ++ l2) R := by
    unfold rightNullRows
    congr 1
    apply List.filter_congr
    intro b hb
    rw [leftMatchesOf_erase_middle lk rk a l1 l2 b (hne b hb)]
  refine ⟨?_, fun b hb => keysMatch_eq_false_of_ne _ _ (hne b hb), hinner, hleft, ?_⟩
  · intro b
    rw [keysMatch_iff_eq]
    exact eq_comm
  · rw [outerJoin, hleft, hrnr]

/-- Witness for C3: the null-keyed row 5 matches no row of the non-null
right table [3] and appears null-padded in a left join against it. -/
theorem merge_null_key_semantics_witness :
    leftJoin exKeyNull exKeyR ([] ++ 5 :: []) [3]
      = leftJoin exKeyNull exKeyR [] [3]
          ++ (some 5, none) :: leftJoin exKeyNull exKeyR [] [3] :=
  (merge_null_key_semantics exKeyNull exKeyR 5 (by simp [exKeyNull]) [] [] [3]
    (by decide)).2.2.2.1

/-- Counterexample to C3 as stated: the claim says a null synthetic key
never equals null, "even when a right row's key is also null", but
`pd.merge` matches null keys to null keys, so the null-keyed left row 5
joins the null-keyed right row 3 and the pair survives an inner join
instead of being excluded. -/
theorem merge_null_key_counterexample :
    keysMatch [(none : Option Nat)] [none] = true
  ∧ innerJoin exKeyNull exKeyNull [5] [3] = [(some 5, some 3)] := by
  refine ⟨by decide, by decide⟩

/-- C4 (code bug): two validation paths contradict the claim.  (1) With
sequence hyperparameters `accuracy=[2.0]`, `absolute_accuracy=[False]` the
out-of-range branch interpolates the undefined variable `acc` into its
message (line 282), so a `NameError` is raised instead of an
`InvalidArgumentValueError`.  (2) With unequal-length column-name lists and
sequence accuracies the short-circuited `and`-chain of lines 288-293 makes
the whole condition evaluate to False, so validation raises nothing and
matching work begins on the malformed spec. -/
theorem validate_hyperparams_failing_inputs :
    validate_hyperparams (.seq [2]) (.seq [false]) (.scalar "a") (.scalar "a")
      = .error .nameError
  ∧ validate_hyperparams (.seq [1, 1]) (.seq [false, false])
      (.seq ["a", "b"]) (.seq ["c"]) = .ok () := by
  refine ⟨rfl, rfl⟩

theorem geoNarrowSteps_spec (d : GeoPoint → GeoPoint → ℚ) (accuracy : ℚ)
    (leftPts : Nat → GeoPoint) (is : List Nat) (cands : List (Nat → GeoPoint)) :
    geoNarrowSteps d accuracy true leftPts is cands
      = .ok (cands.filter (fun r =>
          is.all (fun i => decide (d (leftPts i) (r i) < accuracy)))) := by
  induction is generalizing cands with
  | nil => simp [geoNarrowSteps]
  | cons i is ih =>
    simp only [geoNarrowSteps, geo_fuzzy_match, if_true]
    rw [ih]
    congr 1
    rw [List.filter_filter]
    apply List.filter_congr
    intro r hr
    simp [List.all_cons, Bool.and_comm]

/-- C6: with an absolute tolerance, the per-left-row geo match returns the
first right-row candidate, in original row order, whose every coordinate
position `0 .. numPos-1` lies within the distance tolerance of the left
row's corresponding point — not the closest candidate and not all
candidates — and null exactly when the iteratively narrowed candidate set
is empty after all positions.  Without the absolute flag the first
position's filter raises `InvalidArgumentTypeError`.  Stated for every
distance function `d`; the source instantiates `d` with the haversine
great-circle distance. -/
theorem geo_strategy_first_remaining (d : GeoPoint → GeoPoint → ℚ) (accuracy : ℚ)
    (leftPts : Nat → GeoPoint) (numPos : Nat) (rights : List (Nat → GeoPoint)) :
    geoMatchRow d accuracy true leftPts numPos rights
      = .ok ((rights.filter (fun r =>
          (List.range numPos).all (fun i =>
            decide (d (leftPts i) (r i) < accuracy)))).head?)
  ∧ ∀ n, geoMatchRow d accuracy false leftPts (n + 1) rights
      = .error (.invalidArgumentType
          "geo fuzzy match requires an absolute accuracy parameter that specifies the tolerance in meters") := by
  constructor
  · rw [geoMatchRow, geoNarrowSteps_spec]
    rfl
  · intro n
    rw [geoMatchRow, List.range_succ_eq_map]
    rfl

/-- C5: the datetime tolerance is computed once per column pair as
`(1 - accuracy) * min(leftRange, rightRange)`, each range being
`max(timestamps) - min(timestamps)` of that column; every left timestamp is
matched against the distinct right timestamps, keeping a minimal-distance
candidate within tolerance under the strict `<` tie-break (the
first-encountered equally-minimal candidate is kept, and enumeration is in
ascending order, so ties go to the earlier timestamp); no candidate within
tolerance yields null. -/
theorem datetime_strategy_correct (leftVals rightVals : List ℚ) (accuracy : ℚ)
    (hR : rightVals ≠ []) :
    datetime_pipeline leftVals rightVals accuracy
      = leftVals.map (fun m => datetime_fuzzy_match m (uniqueSorted rightVals)
          (compute_datetime_tolerance leftVals rightVals accuracy))
  ∧ compute_datetime_tolerance leftVals rightVals accuracy
      = (1 - accuracy) * min (listMax leftVals - listMin leftVals)
          (listMax rightVals - listMin rightVals)
  ∧ ∀ m tol,
      (∀ c, datetime_fuzzy_match m (uniqueSorted rightVals) tol = some c →
        c ∈ rightVals ∧ IsFirstMin m tol (uniqueSorted rightVals) c
          ∧ (∀ x ∈ rightVals, |m - x| ≤ tol → |m - c| ≤ |m - x|))
    ∧ (datetime_fuzzy_match m (uniqueSorted rightVals) tol = none ↔
        ∀ x ∈ rightVals, ¬ |m - x| ≤ tol) := by
  refine ⟨rfl, ?_, ?_⟩
  · unfold compute_datetime_tolerance compute_time_range
    rw [listMax_congr (uniqueSorted rightVals) rightVals (mem_uniqueSorted _)
        (uniqueSorted_ne_nil _ hR) hR,
      listMin_congr (uniqueSorted rightVals) rightVals (mem_uniqueSorted _)
        (uniqueSorted_ne_nil _ hR) hR]
  · intro m tol
    constructor
    · intro c hc
      rw [datetime_fuzzy_match, Option.map_eq_some'] at hc
      obtain ⟨⟨d, c'⟩, hf, hc'⟩ := hc
      cases hc'
      obtain ⟨hd, hfm⟩ := (dtfFold_spec _ _ _).2 d c' hf
      obtain ⟨l1, l2, hdec, htol, hmin, hfirst⟩ := hfm
      have hcmem : c' ∈ rightVals := by
        rw [← mem_uniqueSorted, hdec]
        simp
      refine ⟨hcmem, ⟨l1, l2, hdec, htol, hmin, hfirst⟩, ?_⟩
      intro x hx hxt
      exact hmin x ((mem_uniqueSorted _ _).mpr hx) hxt
    · rw [datetime_fuzzy_match, Option.map_eq_none', (dtfFold_spec _ _ _).1]
      constructor
      · intro h x hx
        exact h x ((mem_uniqueSorted _ _).mpr hx)
      · intro h x hx
        exact h x ((mem_uniqueSorted _ _).mp hx)

/-- Witness for C5: the tolerance equation evaluated for left column [0]
and right column [4] at accuracy 1. -/
theorem datetime_strategy_correct_witness :
    compute_datetime_tolerance [0] [4] 1
      = (1 - 1) * min (listMax [0] - listMin [0]) (listMax [4] - listMin [4]) :=
  (datetime_strategy_correct [0] [4] 1 (by simp)).2.1

theorem keysMatch_single_some {κ : Type} [DecidableEq κ] (v b : κ) :
    keysMatch [some v] [some b] = decide (v = b) := by
  by_cases h : v = b <;> simp [keysMatch, h]

theorem filter_decide_eq_nil {κ : Type} [DecidableEq κ] (xs : List κ) (v : κ)
    (h : v ∉ xs) : xs.filter (fun b => decide (v = b)) = [] := by
  induction xs with
  | nil => rfl
  | cons x xs ih =>
    rw [List.filter_cons, if_neg (by simp; rintro rfl; exact h (List.mem_cons_self _ _))]
    exact ih (fun hm => h (List.mem_cons_of_mem _ hm))

theorem filter_decide_eq_single {κ : Type} [DecidableEq κ] (R : List κ)
    (hR : R.Nodup) (v : κ) (hv : v ∈ R) :
    R.filter (fun b => decide (v = b)) = [v] := by
  induction R with
  | nil => simp at hv
  | cons x xs ih =>
    rw [List.filter_cons]
    rcases List.mem_cons.mp hv with rfl | hm
    · rw [if_pos (by simp)]
      rw [filter_decide_eq_nil xs v (List.nodup_cons.mp hR).1]
    · have hvx : ¬ v = x := by
        rintro rfl
        exact (List.nodup_cons.mp hR).1 hm
      rw [if_neg (by simpa using hvx)]
      exact ih (List.nodup_cons.mp hR).2 hm

theorem inner_self_diag (R : List String) (hR : R.Nodup) (sub : List String)
    (hsub : ∀ v ∈ sub, v ∈ R) :
    innerJoin (fun p : String × Option String => [p.2]) (fun v : String => [some v])
        (sub.zip (sub.map some)) R
      = sub.map (fun v => (some (v, some v), some v)) := by
  induction sub with
  | nil => rfl
  | cons v vs ih =>
    simp only [List.map_cons, List.zip_cons_cons]
    have hfil : matchesOf (fun p : String × Option String => [p.2])
        (fun v : String => [some v]) (v, some v) R = [v] := by
      rw [matchesOf]
      calc R.filter (fun b => keysMatch [some v] [some b])
          = R.filter (fun b => decide (v = b)) := by
            apply List.filter_congr
            intro b hb
            exact keysMatch_single_some v b
        _ = [v] := filter_decide_eq_single R hR v (hsub v (List.mem_cons_self _ _))
    have hcons : innerJoin (fun p : String × Option String => [p.2])
        (fun v : String => [some v]) ((v, some v) :: vs.zip (vs.map some)) R
        = (matchesOf (fun p : String × Option String => [p.2])
            (fun v : String => [some v]) (v, some v) R).map
              (fun b => (some (v, some v), some b))
          ++ innerJoin (fun p : String × Option String => [p.2])
              (fun v : String => [some v]) (vs.zip (vs.map some)) R := rfl
    rw [hcons, hfil, ih (fun x hx => hsub x (List.mem_cons_of_mem _ hx))]
    rfl

/-- C9 (amended): joining a table with itself on the same string column at
accuracy 1.0 in inner mode passes the raw values through as synthetic keys;
when the column's values are distinct, every row matches exactly once and
the output row count equals the input row count.  With duplicated values a
row matches every duplicate, so the count grows (see counterexample). -/
theorem string_identity_join (score : String → String → ℚ) (vals : List String)
    (hnd : vals.Nodup) :
    create_string_merge_cols score vals vals 1 = .ok (vals.map some)
  ∧ string_self_inner_join score vals
      = .ok (vals.map (fun v => (some (v, some v), some v)))
  ∧ (vals.map (fun v => (some (v, some v), some v))).length = vals.length := by
  have h1 : create_string_merge_cols score vals vals 1 = .ok (vals.map some) := by
    rw [create_string_merge_cols, if_neg (lt_irrefl (1 : ℚ))]
  refine ⟨h1, ?_, by simp⟩
  rw [string_self_inner_join, h1]
  show Except.ok (innerJoin (fun p : String × Option String => [p.2])
      (fun v : String => [some v]) (vals.zip (vals.map some)) vals) = _
  rw [inner_self_diag vals hnd vals (fun v hv => hv)]

/-- Witness for C9: the identity self-join on the two-row column
["x", "y"]. -/
theorem string_identity_join_witness :
    create_string_merge_cols (fun _ _ => 0) ["x", "y"] ["x", "y"] 1
      = .ok (["x", "y"].map some) :=
  (string_identity_join (fun _ _ => 0) ["x", "y"] (by decide)).1

/-- Counterexample to C9 as stated: the table with duplicated column values
["a", "a"], self-joined at accuracy 1.0 in inner mode, yields 4 rows while
the input has 2 rows — rows do not match exactly once. -/
theorem string_identity_join_counterexample :
    string_self_inner_join (fun _ _ => 0) ["a", "a"]
      = .ok [(some ("a", some "a"), some "a"), (some ("a", some "a"), some "a"),
             (some ("a", some "a"), some "a"), (some ("a", some "a"), some "a")]
  ∧ (4 : Nat) ≠ (["a", "a"] : List String).length := by
  constructor
  · have h1 : create_string_merge_cols (fun _ _ => (0 : ℚ)) ["a", "a"] ["a", "a"] 1
        = .ok (["a", "a"].map some) := by
      rw [create_string_merge_cols, if_neg (lt_irrefl (1 : ℚ))]
    rw [string_self_inner_join, h1]
    show Except.ok _ = _
    congr 1
  · decide

/-- C10: with at least one left row, accuracy below 1 and an empty right
column, the distinct right-value set handed to `extractOne` is empty,
`extractOne` returns `None`, and the tuple unpacking in
`_string_fuzzy_match` raises a `TypeError` instead of producing null
synthetic keys. -/
theorem string_empty_right_errors (score : String → String → ℚ)
    (leftVals : List String) (accuracy : ℚ) (h1 : leftVals ≠ [])
    (h2 : accuracy < 1) :
    create_string_merge_cols score leftVals [] accuracy = .error .typeError := by
  obtain ⟨k, ks, hks⟩ : ∃ k ks, uniqueFirst leftVals = k :: ks := by
    cases hu : uniqueFirst leftVals with
    | nil => exact absurd hu (uniqueFirst_ne_nil _ h1)
    | cons k ks => exact ⟨k, ks, rfl⟩
  rw [create_string_merge_cols, if_pos h2]
  rw [show uniqueFirst ([] : List String) = [] from rfl, hks]
  rfl

/-- Witness for C10: a one-row left column, accuracy 0, empty right
column. -/
theorem string_empty_right_errors_witness :
    create_string_merge_cols (fun _ _ => 0) ["x"] [] 0 = .error .typeError :=
  string_empty_right_errors (fun _ _ => 0) ["x"] 0 (by simp) (by norm_num)
